import Mathlib

/-
Verification of @apostrophecms/sql (src/index.js): a MongoDB-like API
emulated on a relational engine through the knex query builder.

The embedding below translates the source into Lean:
- JavaScript documents (objects decoded from the extended-JSON blob) become
  association lists `Doc := List (String × Value)` over a `Value` type covering
  the document model (strings, numbers modelled as Int, booleans, null, dates,
  arrays, nested objects).  JS objects have unique keys; lookups take the first
  binding, assignment replaces in place or appends, matching JS key order.
- The relational engine (external collaborator) is modelled at its interface:
  a table is a list of rows, a row is a set of named columns (absent = SQL
  NULL) plus the `_ext_json` blob; `WHERE c = v` conjunctions filter rows,
  and unique-constraint checks reject conflicting inserts with an error whose
  code is `SQLITE_CONSTRAINT`, as sqlite reports through knex.
- The `sift` predicate matcher and the EJSON codec are external collaborators
  (black boxes per the spec).  The codec is a type-preserving bijection, so a
  blob is modelled by the document it encodes.  The matcher is modelled on the
  fragment relevant here: top-level equality fields, `$and`/`$or`, and operator
  objects; operator objects are never pushed down, so planner proofs depend
  only on the equality/`$and` fragment.  Array-membership equality is not
  modelled (indexes on array properties are unsupported per the README).
-/

namespace ASql

/-- Document values: the JS values that travel through the EJSON codec.
Numbers are modelled as `Int` (the claims exercise no fractional arithmetic);
`vDate` carries a millisecond timestamp. -/
inductive Value where
  | vStr (s : String)
  | vInt (n : Int)
  | vBool (b : Bool)
  | vNull
  | vDate (ms : Int)
  | vArr (elems : List Value)
  | vObj (fields : List (String × Value))

/-- Documents and JS objects: ordered association lists, first binding wins. -/
abbrev Doc := List (String × Value)

/-- Property read `d[k]`: the first binding for `k`, `none` for absent. -/
def docGet : Doc → String → Option Value
  | [], _ => none
  | p :: rest, k => if p.1 == k then some p.2 else docGet rest k

/-- Key-presence test `Object.hasOwn(d, k)`. -/
def hasKey : Doc → String → Bool
  | [], _ => false
  | p :: rest, k => p.1 == k || hasKey rest k

/-- Property write `d[k] = v`: replaces the binding in place when the key
exists (JS keeps the key's insertion position) and appends otherwise. -/
def objSet (d : Doc) (k : String) (v : Value) : Doc :=
  if hasKey d k then
    d.map (fun p => if p.1 == k then (k, v) else p)
  else
    d ++ [(k, v)]

/-- Property removal `delete d[k]`. -/
def objDelete (d : Doc) (k : String) : Doc :=
  d.filter (fun p => p.1 != k)

/-- Split of a character list at every dot, the segments in order. -/
def splitChars : List Char → List (List Char)
  | [] => [[]]
  | c :: rest =>
    match splitChars rest with
    | seg :: segs => if c = '.' then [] :: seg :: segs else (c :: seg) :: segs
    | [] => [[]]

/-- Split of a dotted property path into its segments (`'a.b'` into
`['a', 'b']`), as the matcher resolves criteria keys. -/
def splitPath (s : String) : List String :=
  (splitChars s.data).map (fun cs => String.mk cs)

/-- Walk of a segment path through nested objects: the value at the path, or
`none` when a segment is missing or a non-terminal segment is not an
object.  (Mongo's array traversal along paths is outside the modelled
matcher fragment.) -/
def docGetPath : Doc → List String → Option Value
  | _, [] => none
  | d, [k] => docGet d k
  | d, k :: rest =>
    match docGet d k with
    | some (Value.vObj sub) => docGetPath sub rest
    | _ => none

/-- Resolution of a (possibly dotted) criteria key against a document, as
the matcher performs it: the key is split at dots and walked through nested
objects; a dot-free key is a plain top-level lookup. -/
def docGetDotted (d : Doc) (k : String) : Option Value :=
  docGetPath d (splitPath k)

/-- Test for a dot-free property name: exactly the names the column mangling
leaves unchanged and the matcher resolves as a single segment. -/
def dotFree (s : String) : Bool :=
  s.data.all (fun c => c != '.')

/-- JS `typeof v !== 'object'` test used by the pushdown: strings, numbers and
booleans pass; `null`, dates, arrays and objects are all `typeof 'object'`. -/
def isScalarJS : Value → Bool
  | .vStr _ => true
  | .vInt _ => true
  | .vBool _ => true
  | _ => false

/-- JS truthiness: `''`, `0`, `false` and `null` are falsy; dates, arrays and
objects are truthy. -/
def jsTruthy : Value → Bool
  | .vStr s => s != ""
  | .vInt n => n != 0
  | .vBool b => b
  | .vNull => false
  | _ => true

/-- JS strict equality `===` on decoded values: value equality on primitives,
reference equality on objects/arrays/dates.  Distinct decoded or literal
objects are never the same reference, so object comparisons yield `false`. -/
def jsStrictEq : Value → Value → Bool
  | .vStr a, .vStr b => a == b
  | .vInt a, .vInt b => a == b
  | .vBool a, .vBool b => a == b
  | .vNull, .vNull => true
  | _, _ => false

mutual
/-- Structural (deep) value equality, used to model the matcher's equality
tests (sift compares with a deep `isEqual`, not `===`). -/
def valueEq : Value → Value → Bool
  | .vStr a, .vStr b => a == b
  | .vInt a, .vInt b => a == b
  | .vBool a, .vBool b => a == b
  | .vNull, .vNull => true
  | .vDate a, .vDate b => a == b
  | .vArr xs, .vArr ys => valueListEq xs ys
  | .vObj xs, .vObj ys => fieldListEq xs ys
  | _, _ => false
termination_by a _ => sizeOf a
decreasing_by
  all_goals (simp <;> omega)

/-- Elementwise equality of value lists. -/
def valueListEq : List Value → List Value → Bool
  | [], [] => true
  | x :: xs, y :: ys => valueEq x y && valueListEq xs ys
  | _, _ => false
termination_by a _ => sizeOf a
decreasing_by
  all_goals (simp <;> omega)

/-- Pairwise equality of object field lists (keys and values, in order). -/
def fieldListEq : List (String × Value) → List (String × Value) → Bool
  | [], [] => true
  | (k, x) :: xs, (l, y) :: ys => k == l && valueEq x y && fieldListEq xs ys
  | _, _ => false
termination_by a _ => sizeOf a
decreasing_by
  all_goals (simp <;> omega)
end

/-- Sizes shrink through `docGet`, justifying recursion into looked-up values. -/
theorem sizeOf_docGet {d : Doc} {k : String} {v : Value} (h : docGet d k = some v) :
    sizeOf v < sizeOf d := by
  induction d with
  | nil => simp [docGet] at h
  | cons p rest ih =>
    simp only [docGet] at h
    by_cases hp : (p.1 == k) = true
    · simp [hp] at h
      subst h
      cases p with
      | mk a b => simp; omega
    · simp [hp] at h
      have := ih h
      cases p with
      | mk a b => simp; omega

mutual
/-- Translation of `deepGet(criteria, key)` (src/index.js lines 386-399):
looks for `key` as an own property of `criteria`, else descends into the
values of `criteria.$and` (skipping falsy and non-object entries, which the
source guards with `if (value)` and which cannot carry own properties). -/
def deepGet (criteria : Doc) (key : String) : Option Value :=
  match docGet criteria key with
  | some v => some v
  | none =>
    match h : docGet criteria "$and" with
    | some (Value.vArr vs) => deepGetArr vs key
    | some (Value.vObj fs) => deepGetFields fs key
    | _ => none
termination_by sizeOf criteria
decreasing_by
  all_goals (have hlt := sizeOf_docGet h; simp at hlt ⊢; omega)

/-- Walk of `Object.values` of an array-valued `$and`, recursing into each
object element until `key` is found. -/
def deepGetArr (vs : List Value) (key : String) : Option Value :=
  match vs with
  | [] => none
  | Value.vObj d :: rest =>
    match deepGet d key with
    | some r => some r
    | none => deepGetArr rest key
  | _ :: rest => deepGetArr rest key
termination_by sizeOf vs
decreasing_by
  all_goals (simp <;> omega)

/-- Walk of `Object.values` of an object-valued `$and` (the source passes the
values of whatever `$and` holds). -/
def deepGetFields (fs : List (String × Value)) (key : String) : Option Value :=
  match fs with
  | [] => none
  | (_, Value.vObj d) :: rest =>
    match deepGet d key with
    | some r => some r
    | none => deepGetFields rest key
  | _ :: rest => deepGetFields rest key
termination_by sizeOf fs
decreasing_by
  all_goals (simp <;> omega)
end

/-- Option-level deep equality, for comparing a looked-up property with a
criterion (`none` is a missing property). -/
def optValueEq : Option Value → Option Value → Bool
  | some a, some b => valueEq a b
  | none, none => true
  | _, _ => false

/-- Operator-object test: sift treats a plain object whose first key starts
with `$` as an operator expression rather than an exact match. -/
def isOpObj (fs : List (String × Value)) : Bool :=
  match fs with
  | (k, _) :: _ => k.startsWith "$"
  | [] => false

/-- Model of one matcher comparison operator applied to a document value.
The matcher is a black box at the spec's boundary; only the operators the
repository's query shapes use are given semantics, and none of this is ever
pushed down (operator objects fail the planner's scalar test), so the planner
theorems do not depend on these cases. -/
def opCond (op : String) (arg : Value) (dv : Option Value) : Bool :=
  match op, arg, dv with
  | "$ne", a, some v => !(valueEq v a)
  | "$ne", _, none => true
  | "$gt", .vInt a, some (.vInt v) => a < v
  | "$lt", .vInt a, some (.vInt v) => v < a
  | "$gte", .vInt a, some (.vInt v) => a ≤ v
  | "$lte", .vInt a, some (.vInt v) => v ≤ a
  | "$in", .vArr xs, some v => xs.any (fun x => valueEq x v)
  | "$exists", b, d => jsTruthy b == d.isSome
  | _, _, _ => false

/-- Conjunction of the operator clauses of one operator object. -/
def opMatch (fs : List (String × Value)) (dv : Option Value) : Bool :=
  fs.all (fun p => opCond p.1 p.2 dv)

mutual
/-- Model of `sift(criteria)(doc)`: the in-memory matcher (an external
collaborator, `matches(predicate, document) → bool` per the spec) on the
fragment the repository exercises.  A criteria object is an implicit
conjunction of its fields; `$and`/`$or` take arrays of sub-criteria; a
non-operator field is a deep-equality test on the document's property at the
field's (possibly dotted, dot-resolved) path. -/
def siftDoc : Doc → Doc → Bool
  | [], _ => true
  | (k, v) :: rest, doc => siftCond k v doc && siftDoc rest doc
termination_by c _ => sizeOf c
decreasing_by
  all_goals (simp <;> omega)

/-- Semantics of a single criteria field. -/
def siftCond (k : String) (v : Value) (doc : Doc) : Bool :=
  if k == "$and" then
    match v with
    | .vArr vs => siftAll vs doc
    | _ => false
  else if k == "$or" then
    match v with
    | .vArr vs => siftAny vs doc
    | _ => false
  else
    match v with
    | .vObj fs =>
      if isOpObj fs then opMatch fs (docGetDotted doc k)
      else optValueEq (docGetDotted doc k) (some (.vObj fs))
    | _ => optValueEq (docGetDotted doc k) (some v)
termination_by sizeOf v
decreasing_by
  all_goals (simp <;> omega)

/-- Conjunction over the branches of `$and`; non-object branches are
rejected by the matcher. -/
def siftAll : List Value → Doc → Bool
  | [], _ => true
  | Value.vObj c :: rest, doc => siftDoc c doc && siftAll rest doc
  | _ :: _, _ => false
termination_by vs _ => sizeOf vs
decreasing_by
  all_goals (simp <;> omega)

/-- Disjunction over the branches of `$or`. -/
def siftAny : List Value → Doc → Bool
  | [], _ => false
  | Value.vObj c :: rest, doc => siftDoc c doc || siftAny rest doc
  | _ :: _, _ => false
termination_by vs _ => sizeOf vs
decreasing_by
  all_goals (simp <;> omega)
end

/-- Translation of `mangleName` (src/index.js line 421):
`name.replace(/\\./g, '__')`, every dot of a property path becoming a double
underscore to form a column name (written as a character fold so that
concrete column names compute). -/
def mangleName (name : String) : String :=
  String.mk (name.data.foldr (fun c acc => if c = '.' then '_' :: '_' :: acc else c :: acc) [])

/-- Index descriptor: `{fields, options}` with the field list ordered as the
JS object literal and `options.unique`. -/
structure Index where
  fields : List (String × Int)
  unique : Bool

/-- The implicit unique-`_id` index every collection starts with
(src/index.js lines 59-66). -/
def idIndex : Index :=
  { fields := [("_id", 1)], unique := false }

/-- Relational row: named columns (a missing entry is SQL NULL) and the
`_ext_json` blob, modelled by the document it encodes (the EJSON codec is a
type-preserving bijection at the spec's boundary). -/
structure Row where
  cols : Doc
  blob : Doc

/-- Equality-prefix pushdown for one index (src/index.js lines 342-354):
walk the index's fields in order; for each, `deepGet` the field from the
criteria; a defined non-object value becomes a `WHERE field = value`
conjunct, anything else stops the walk for this index. -/
def pushedFields (criteria : Doc) : List (String × Int) → List (String × Value)
  | [] => []
  | (f, _) :: rest =>
    match deepGet criteria f with
    | some v =>
      if isScalarJS v then (f, v) :: pushedFields criteria rest
      else []
    | none => []

/-- All pushed-down equality conditions, indexes processed in registration
order (the implicit `_id` index first). -/
def pushedConds (indexes : List Index) (criteria : Doc) : List (String × Value) :=
  indexes.foldr (fun i acc => pushedFields criteria i.fields ++ acc) []

/-- Evaluation of the accumulated `andWhere` conjuncts on a row, applicable
once every referenced column belongs to the table schema (the engine rejects
a query naming an unknown column before any row is examined; `toArrayEngine`
below raises that error): SQL equality against a NULL column — a schema
column with no stored entry on this row — is never true, so it fails the
conjunct. -/
def rowSatisfies (r : Row) (conds : List (String × Value)) : Bool :=
  conds.all (fun c =>
    match docGet r.cols c.1 with
    | some w => valueEq w c.2
    | none => false)

/-- Translation of `query(...).toArray()` (src/index.js lines 329-372) for a
query with no sort: run the relational query restricted by the pushed
equality conditions (no OFFSET/LIMIT is ever issued), decode every surviving
row's blob, keep those the matcher accepts, then apply skip and limit in
memory.  `skip(0)`/`limit(0)` are falsy in JS, hence indistinguishable from
unset parameters (`skipParam`/`limitParam` start as `null`).  This is the
successful-query path; `toArrayEngine` wraps it with the engine's
unknown-column rejection, which the pushdown can trigger because it issues
the raw field name (line 348) while columns are created mangled (line 80). -/
def toArrayModel (t : List Row) (indexes : List Index) (criteria : Doc)
    (skipParam limitParam : Nat) : List Doc :=
  let conds := pushedConds indexes criteria
  let results := t.filter (fun r => rowSatisfies r conds)
  let filtered := (results.filter (fun r => siftDoc criteria r.blob)).map Row.blob
  let afterSkip := if skipParam != 0 then filtered.drop skipParam else filtered
  if limitParam != 0 then afterSkip.take limitParam else afterSkip

/-- Translation of `findOne` (src/index.js lines 128-130):
`find(criteria).limit(1).toArray()[0]`. -/
def findOneModel (t : List Row) (indexes : List Index) (criteria : Doc) : Option Doc :=
  (toArrayModel t indexes criteria 0 1).head?

/-- Translation of `prepareForUpdate` (src/index.js lines 401-412): the row
carries `_id`, the blob of the full document, and one promoted column per
index field, named by `mangleName` and holding `deepGet(doc, field)`.  A JS
`undefined` value leaves the column NULL, modelled as an absent entry. -/
def prepareForUpdate (indexes : List Index) (doc : Doc) : Row :=
  let cols0 : Doc :=
    match docGet doc "_id" with
    | some v => [("_id", v)]
    | none => []
  let cols := indexes.foldl (fun acc i =>
    i.fields.foldl (fun acc2 fd =>
      match deepGet doc fd.1 with
      | some v => objSet acc2 (mangleName fd.1) v
      | none => acc2) acc) cols0
  { cols := cols, blob := doc }

/-- Translation of `prepareForInsert` (src/index.js lines 414-419): the
update row with `_id` overridden by `doc._id || cuid()`; the cuid generator
is nondeterministic, so the generated id is a parameter.  The blob is
computed by `prepareForUpdate` from the document as given, before any id is
chosen. -/
def prepareForInsert (indexes : List Index) (doc : Doc) (genId : String) : Row :=
  let r := prepareForUpdate indexes doc
  let idVal :=
    match docGet doc "_id" with
    | some v => if jsTruthy v then v else Value.vStr genId
    | none => Value.vStr genId
  { r with cols := objSet r.cols "_id" idVal }

/-- Error codes crossing the module's boundary.  `sqliteConstraint` stands
for the string code `SQLITE_CONSTRAINT` sqlite reports through knex,
`dup11000` for the numeric MongoDB duplicate-key code `11000` the wrapper
substitutes, `mysqlDupEntry` for MySQL's `ER_DUP_ENTRY`, and
`undefinedBinding` for knex's undefined-binding failure. -/
inductive ErrCode where
  | sqliteConstraint
  | dup11000
  | mysqlDupEntry
  | undefinedBinding
  | other (s : String)
  deriving DecidableEq, Repr

/-- Error value: a code plus a message, the shape callers branch on. -/
structure SqlError where
  code : ErrCode
  message : String
  deriving DecidableEq, Repr

/-- Translation of `compatibleError` (src/index.js lines 425-434): an error
whose code is `SQLITE_CONSTRAINT` becomes a fresh `Not Unique` error with
code `11000`; every other error is returned untouched. -/
def compatibleError (e : SqlError) : SqlError :=
  if e.code = ErrCode.sqliteConstraint then
    { code := ErrCode.dup11000, message := "Not Unique" }
  else e

/-- The sqlite error the engine raises when a query references a column the
table does not have, as the pushdown does for a dotted index field: it
issues the raw name (src/index.js line 348) while `createIndex` created the
column under the mangled name (line 80). -/
def noSuchColumnErr (c : String) : SqlError :=
  { code := ErrCode.other "SQLITE_ERROR", message := "no such column: " ++ c }

/-- Engine-level view of `query(...).toArray()`: before examining any row,
the engine compiles the pushed `WHERE` conjuncts against the table schema
and rejects the whole query with `no such column` when one references a
column the table lacks; otherwise the query runs and `toArrayModel` gives
its rows.  A per-row missing entry for a schema column is SQL NULL, handled
inside `rowSatisfies`. -/
def toArrayEngine (schema : List String) (t : List Row) (indexes : List Index)
    (criteria : Doc) (skipParam limitParam : Nat) : Except SqlError (List Doc) :=
  match (pushedConds indexes criteria).find? (fun c => !(schema.contains c.1)) with
  | some c => Except.error (noSuchColumnErr c.1)
  | none => Except.ok (toArrayModel t indexes criteria skipParam limitParam)

/-- Result descriptor a mutating call hands back
(`{result: {nModified: n}}` or `{result: {nDeleted: n}}`). -/
inductive ResultDescriptor where
  | modified (n : Nat)
  | deleted (n : Nat)
  deriving DecidableEq, Repr

/-- Backend model of a unique-constraint conflict between an existing row and
a row being inserted: the primary key `_id` collides, or some unique index's
columns all hold equal non-NULL values (SQL unique constraints ignore NULLs). -/
def uniqueConflict (r newRow : Row) (indexes : List Index) : Bool :=
  (match docGet newRow.cols "_id", docGet r.cols "_id" with
   | some a, some b => valueEq a b
   | _, _ => false) ||
  indexes.any (fun i =>
    i.unique && !i.fields.isEmpty && i.fields.all (fun fd =>
      let c := mangleName fd.1
      match docGet newRow.cols c, docGet r.cols c with
      | some a, some b => valueEq a b
      | _, _ => false))

/-- Translation of `insertOne` (src/index.js lines 179-191): build the row
with `prepareForInsert`, let the engine insert it — the engine (modelled at
its interface) raises `SQLITE_CONSTRAINT` on a uniqueness conflict, which the
catch block routes through `compatibleError` — and report
`{result: {nModified: 1}}` on success. -/
def insertOneModel (t : List Row) (indexes : List Index) (doc : Doc)
    (genId : String) : Except SqlError (List Row × ResultDescriptor) :=
  let row := prepareForInsert indexes doc genId
  if t.any (fun r => uniqueConflict r row indexes) then
    Except.error (compatibleError
      { code := ErrCode.sqliteConstraint
      , message := "SQLITE_CONSTRAINT: UNIQUE constraint failed" })
  else
    Except.ok (t ++ [row], ResultDescriptor.modified 1)

/-- Set-constructor dedup for `[...new Set(xs)]`: first occurrences survive,
compared by SameValueZero (reference identity for objects, so distinct
decoded objects never merge). -/
def dedupJs (xs : List Value) : List Value :=
  xs.foldl (fun acc x => if acc.any (fun y => jsStrictEq y x) then acc else acc ++ [x]) []

/-- Translation of the `$currentDate` rewrite at the top of `updateBody`
(src/index.js lines 234-246): every `$currentDate` key becomes a `$set` of
the current time, then `$currentDate` is removed; `$set` keeps its original
position when present and is appended otherwise, as JS object update does. -/
def rewriteCurrentDate (ops : Doc) (now : Int) : Doc :=
  match docGet ops "$currentDate" with
  | some cd =>
    let keys : List String :=
      match cd with
      | .vObj fs => fs.map (fun p => p.1)
      | _ => []
    let set0 : Doc :=
      match docGet ops "$set" with
      | some (.vObj fs) => fs
      | _ => []
    let newSet := keys.foldl (fun s k => objSet s k (Value.vDate now)) set0
    objDelete (objSet ops "$set" (Value.vObj newSet)) "$currentDate"
  | none => ops

/-- JS `+=` on the values `$inc` meets: numeric addition.  Non-numeric
operands (string concatenation, NaN production) are outside the modelled
fragment and collapse to null. -/
def jsAdd : Value → Value → Value
  | .vInt a, .vInt b => .vInt (a + b)
  | _, _ => .vNull

/-- Translation of one arm of the operator switch in `updateBody`
(src/index.js lines 247-281).  `$set` is `Object.assign`; `$unset` deletes
keys; `$inc` defaults an absent key to 0 then adds; `$pull` replaces the
property by `(doc[prop] || []).filter(v => v !== pulled)` — note the property
is assigned even when it was absent; `$addToSet` assigns
`[...new Set(doc[prop] || [], added)]` — the `Set` constructor takes a single
iterable, so `added` sits in an ignored argument position.  A truthy
non-iterable/non-array property raises a TypeError; a falsy one behaves as
`[]`.  Unknown operators raise the unsupported-operator error. -/
def applyOp (doc : Doc) (key : String) (v : Value) : Except SqlError Doc :=
  match key with
  | "$set" =>
    match v with
    | .vObj fs => Except.ok (fs.foldl (fun d p => objSet d p.1 p.2) doc)
    | _ => Except.ok doc
  | "$unset" =>
    match v with
    | .vObj fs => Except.ok (fs.foldl (fun d p => objDelete d p.1) doc)
    | _ => Except.ok doc
  | "$inc" =>
    match v with
    | .vObj fs => Except.ok (fs.foldl (fun d p =>
        let cur := match docGet d p.1 with
          | some c => c
          | none => Value.vInt 0
        objSet d p.1 (jsAdd cur p.2)) doc)
    | _ => Except.ok doc
  | "$pull" =>
    match v with
    | .vObj fs => fs.foldlM (fun d p =>
        match docGet d p.1 with
        | some c =>
          if jsTruthy c then
            match c with
            | .vArr xs =>
              Except.ok (objSet d p.1 (Value.vArr (xs.filter (fun x => !(jsStrictEq x p.2)))))
            | _ => Except.error { code := ErrCode.other "TypeError"
                                , message := "filter is not a function" }
          else Except.ok (objSet d p.1 (Value.vArr []))
        | none => Except.ok (objSet d p.1 (Value.vArr []))) doc
    | _ => Except.ok doc
  | "$addToSet" =>
    match v with
    | .vObj fs => fs.foldlM (fun d p =>
        match docGet d p.1 with
        | some c =>
          if jsTruthy c then
            match c with
            | .vArr xs => Except.ok (objSet d p.1 (Value.vArr (dedupJs xs)))
            | .vStr s =>
              Except.ok (objSet d p.1
                (Value.vArr (dedupJs (s.toList.map (fun ch => Value.vStr (String.mk [ch]))))))
            | _ => Except.error { code := ErrCode.other "TypeError"
                                , message := "argument is not iterable" }
          else Except.ok (objSet d p.1 (Value.vArr []))
        | none => Except.ok (objSet d p.1 (Value.vArr []))) doc
    | _ => Except.ok doc
  | _ =>
    Except.error { code := ErrCode.other "UnsupportedOperator"
                 , message := "@apostrophecms/sql does not support " ++ key }

/-- In-memory part of `updateBody`: the `$currentDate` rewrite followed by
the operator switch over `Object.entries(operations)` in insertion order. -/
def applyOperations (doc ops : Doc) (now : Int) : Except SqlError Doc :=
  (rewriteCurrentDate ops now).foldlM (fun d p => applyOp d p.1 p.2) doc

/-- SQL `UPDATE ... SET` of the prepared row's columns and blob onto an
existing row: listed columns are overwritten, unlisted ones keep their
values. -/
def applyRowUpdate (r upd : Row) : Row :=
  { cols := upd.cols.foldl (fun acc p => objSet acc p.1 p.2) r.cols
  , blob := upd.blob }

/-- Translation of the persistence tail of `updateBody` (src/index.js
line 282): update the blob and all promoted columns, recomputed from the
document, on every row whose `_id` equals the document's; report
`{result: {nModified: 1}}`.  A document with no `_id` makes knex reject the
undefined `where` binding. -/
def updateBodyModel (t : List Row) (indexes : List Index) (doc ops : Doc)
    (now : Int) : Except SqlError (List Row × ResultDescriptor) := do
  let doc' ← applyOperations doc ops now
  match docGet doc' "_id" with
  | none => Except.error { code := ErrCode.undefinedBinding
                         , message := "Undefined binding(s) detected" }
  | some idv =>
    let upd := prepareForUpdate indexes doc'
    Except.ok
      ( t.map (fun r =>
          if optValueEq (docGet r.cols "_id") (some idv) then applyRowUpdate r upd else r)
      , ResultDescriptor.modified 1 )

/-- Translation of `updateOne` (src/index.js lines 218-232): find one
matching document; none matched means `{nModified: 0}` (or, with
`upsert: true`, an insert of the `$set` payload); otherwise run
`updateBody`. -/
def updateOneModel (t : List Row) (indexes : List Index) (criteria ops : Doc)
    (upsert : Bool) (now : Int) (genId : String) :
    Except SqlError (List Row × Option ResultDescriptor) :=
  match findOneModel t indexes criteria with
  | none =>
    if upsert then
      let payload : Doc :=
        match docGet ops "$set" with
        | some (.vObj fs) => fs
        | _ => []
      (insertOneModel t indexes payload genId).map (fun p => (p.1, some p.2))
    else Except.ok (t, some (ResultDescriptor.modified 0))
  | some doc =>
    (updateBodyModel t indexes doc ops now).map (fun p => (p.1, some p.2))

/-- Translation of `updateMany` (src/index.js lines 289-300): fetch every
match, upsert-insert when empty and requested, otherwise run `updateBody`
per document — and then fall off the end of the function body, so the
resolved value is `undefined` (`none`), not a result descriptor. -/
def updateManyModel (t : List Row) (indexes : List Index) (criteria ops : Doc)
    (upsert : Bool) (now : Int) (genId : String) :
    Except SqlError (List Row × Option ResultDescriptor) :=
  let docs := toArrayModel t indexes criteria 0 0
  if upsert && docs.isEmpty then
    let payload : Doc :=
      match docGet ops "$set" with
      | some (.vObj fs) => fs
      | _ => []
    (insertOneModel t indexes payload genId).map (fun p => (p.1, some p.2))
  else do
    let t' ← docs.foldlM (fun acc d => (updateBodyModel acc indexes d ops now).map (fun p => p.1)) t
    Except.ok (t', none)

/-- Membership test of one candidate key against a row's `_id` column, the
engine's elementary step for `whereIn('_id', ids)`; an undefined id or a
NULL column never matches. -/
def idHit (i : Option Value) (r : Row) : Bool :=
  match i, docGet r.cols "_id" with
  | some a, some b => valueEq a b
  | _, _ => false

/-- Translation of `deleteMany` (src/index.js lines 149-167): collect the
matches — with `.limit(1)` — take their `_id`s, and issue one
`whereIn('_id', ids).delete()`; `nDeleted` is the engine's count of removed
rows.  A document lacking `_id` contributes no deletable key (`_id = NULL`
matches nothing). -/
def deleteManyModel (t : List Row) (indexes : List Index) (criteria : Doc) :
    List Row × ResultDescriptor :=
  let matching := toArrayModel t indexes criteria 0 1
  let ids : List (Option Value) := matching.map (fun d => docGet d "_id")
  if ids.isEmpty then (t, ResultDescriptor.deleted 0)
  else
    let keep := t.filter (fun r => !(ids.any (fun i => idHit i r)))
    (keep, ResultDescriptor.deleted (t.length - keep.length))

/-- Translation of `removeMany` (src/index.js lines 171-173): a pure
delegation to `deleteMany`. -/
def removeManyModel (t : List Row) (indexes : List Index) (criteria : Doc) :
    List Row × ResultDescriptor :=
  deleteManyModel t indexes criteria

/-- Deployment mode of the metadata subsystem: development may extend the
schema, locked (production) may not. -/
inductive Mode where
  | development
  | locked
  deriving DecidableEq, Repr

/-- Per-collection metadata: property path to backing column name. -/
structure Metadata where
  entries : List (String × String)
  deriving DecidableEq, Repr

/-- Metadata lookup: property path to recorded column name. -/
def lookupEntry : List (String × String) → String → Option String
  | [], _ => none
  | p :: rest, k => if p.1 == k then some p.2 else lookupEntry rest k

/-- The SchemaViolation error of the locked-mode contract. -/
def schemaViolationErr : SqlError :=
  { code := ErrCode.other "SchemaViolation"
  , message := "SchemaViolation: column not authorized by metadata" }

/-- Modelled from the spec: the Metadata Store's
`resolveColumn(collectionName, propertyPath, purpose)` (spec section 4.1) is
not implemented under src/ (the README documents it; src/index.js has no
metadata subsystem yet).  In development mode a missing entry mints the
mangled column name and records it; in locked mode a missing entry fails
with `SchemaViolation`, and the store is read-only. -/
def resolveColumn (mode : Mode) (md : Metadata) (path : String) :
    Except SqlError (Metadata × String) :=
  match lookupEntry md.entries path with
  | some col => Except.ok (md, col)
  | none =>
    match mode with
    | Mode.development =>
      Except.ok ({ entries := md.entries ++ [(path, mangleName path)] }, mangleName path)
    | Mode.locked => Except.error schemaViolationErr

/-- Top-level property paths an operator application mutates through
`$set`/`$unset`/`$inc` (after the `$currentDate` rewrite), the paths the
spec says must have a backing column resolved before or with the write. -/
def touchedPaths (ops : Doc) (now : Int) : List String :=
  (rewriteCurrentDate ops now).foldr (fun p acc =>
    match p.1, p.2 with
    | "$set", .vObj fs => fs.map (fun q => q.1) ++ acc
    | "$unset", .vObj fs => fs.map (fun q => q.1) ++ acc
    | "$inc", .vObj fs => fs.map (fun q => q.1) ++ acc
    | _, _ => acc) []

/-- Modelled from the spec: `updateBody` under the metadata contract of spec
sections 4.1 and 4.4, which src/ does not implement.  The operator
application is the one translated from src/index.js; the added step resolves
a backing column for every touched path before the write, so a locked-mode
resolution failure aborts with no write performed. -/
def updateBodyWithMetadata (mode : Mode) (md : Metadata) (t : List Row)
    (indexes : List Index) (doc ops : Doc) (now : Int) :
    Except SqlError (Metadata × List Row × ResultDescriptor) := do
  let doc' ← applyOperations doc ops now
  let md' ← (touchedPaths ops now).foldlM
    (fun m p => (resolveColumn mode m p).map (fun q => q.1)) md
  match docGet doc' "_id" with
  | none => Except.error { code := ErrCode.undefinedBinding
                         , message := "Undefined binding(s) detected" }
  | some idv =>
    let upd := prepareForUpdate indexes doc'
    Except.ok
      ( md'
      , t.map (fun r =>
          if optValueEq (docGet r.cols "_id") (some idv) then applyRowUpdate r upd else r)
      , ResultDescriptor.modified 1 )

/-- Consistency of a stored row with a set of registered indexes: each index
field's promoted column — stored under the field's MANGLED name, as
`prepareForUpdate` writes it (src/index.js line 408) — holds exactly what
`deepGet` yields on the row's decoded document (an absent column matching an
undefined property).  The write path establishes this for every row written
while those indexes were registered. -/
def rowConsistent (indexes : List Index) (r : Row) : Prop :=
  ∀ i ∈ indexes, ∀ fd ∈ i.fields, docGet r.cols (mangleName fd.1) = deepGet r.blob fd.1

/-- Test fixture: a stored cat row whose promoted `fur` column agrees with
its blob, as inserting after `createIndex({fur: 1})` produces. -/
def pypyRow : Row :=
  { cols := [("_id", Value.vStr "1"), ("fur", Value.vStr "black")]
  , blob := [("_id", Value.vStr "1"), ("fur", Value.vStr "black")] }

/-- Test fixture: a stored cat row written before `createIndex({fur: 1})`:
the blob mentions `fur` but the row has no `fur` column (SQL NULL). -/
def staleRow : Row :=
  { cols := [("_id", Value.vStr "1")]
  , blob := [("_id", Value.vStr "1"), ("fur", Value.vStr "black")] }

/-- Test fixture: a second stored cat row, distinct `_id`, same fur. -/
def spikeRow : Row :=
  { cols := [("_id", Value.vStr "2"), ("fur", Value.vStr "black")]
  , blob := [("_id", Value.vStr "2"), ("fur", Value.vStr "black")] }

/-- Test fixture: a non-unique index on `fur`. -/
def furIndex : Index := { fields := [("fur", 1)], unique := false }

/-- Test fixture: a unique index on `fur`. -/
def furUniqueIndex : Index := { fields := [("fur", 1)], unique := true }

/-- Test fixture: the criteria object of `find({fur: 'black'})`. -/
def furCriteria : Doc := [("fur", Value.vStr "black")]

/-- Test fixture: the cat table's column schema after `createIndex({fur: 1})`
(`_id` and the blob from `createTable`, plus the promoted `fur` column). -/
def catSchema : List String := ["_id", "_ext_json", "fur"]

/-- Lookup succeeding means the binding is in the list. -/
theorem docGet_mem {d : Doc} {k : String} {v : Value} (h : docGet d k = some v) :
    (k, v) ∈ d := by
  induction d with
  | nil => simp [docGet] at h
  | cons p rest ih =>
    simp only [docGet] at h
    by_cases hp : (p.1 == k) = true
    · simp [hp] at h
      have hpk : p = (k, v) := by
        cases p
        simp at hp
        simp_all
      simp [hpk]
    · simp [hp] at h
      exact List.mem_cons_of_mem _ (ih h)

/-- Replacement map writes the value under the key it targets, provided the
key occurs. -/
theorem docGet_map_replace_self (d : Doc) (k : String) (v : Value)
    (hf : hasKey d k = true) :
    docGet (d.map (fun p => if p.1 == k then (k, v) else p)) k = some v := by
  induction d with
  | nil => simp [hasKey] at hf
  | cons p rest ih =>
    by_cases hp : (p.1 == k) = true
    · simp [docGet, hp]
    · have hp' : (p.1 == k) = false := by simpa using hp
      simp only [hasKey, hp', Bool.false_or] at hf
      simp only [List.map_cons, hp', docGet]
      simp only [hp', Bool.false_eq_true, if_false]
      exact ih hf

/-- Appending a binding for an absent key makes it the key's binding. -/
theorem docGet_append_self (d : Doc) (k : String) (v : Value)
    (hf : hasKey d k = false) :
    docGet (d ++ [(k, v)]) k = some v := by
  induction d with
  | nil => simp [docGet]
  | cons p rest ih =>
    simp only [hasKey, Bool.or_eq_false_iff] at hf
    simp only [docGet, List.cons_append, hf.1, if_false]
    exact ih hf.2

/-- Lookup after a write of the same key returns the written value. -/
theorem docGet_objSet_self (d : Doc) (k : String) (v : Value) :
    docGet (objSet d k v) k = some v := by
  unfold objSet
  by_cases hf : hasKey d k = true
  · simp only [hf, if_true]
    exact docGet_map_replace_self d k v hf
  · simp only [hf, if_false]
    exact docGet_append_self d k v (by simpa using hf)

/-- Lookup of another key sees through the in-place replacement map. -/
theorem docGet_map_replace_other (d : Doc) (k q : String) (v : Value) (hq : q ≠ k) :
    docGet (d.map (fun p => if p.1 == k then (k, v) else p)) q = docGet d q := by
  induction d with
  | nil => simp
  | cons p rest ih =>
    by_cases hp : (p.1 == k) = true
    · have h1 : (p.1 == q) = false := by
        simp at hp ⊢
        intro h
        exact hq (by rw [← h, hp])
      have h2 : ((k : String) == q) = false := by
        simp
        intro h
        exact hq h.symm
      simp only [List.map_cons, hp, if_true, docGet, h1, h2]
      simp only [h1, h2, Bool.false_eq_true, if_false]
      exact ih
    · have hp' : (p.1 == k) = false := by simpa using hp
      by_cases h1 : (p.1 == q) = true
      · simp [docGet, hp', h1]
      · have h1' : (p.1 == q) = false := by simpa using h1
        simp only [List.map_cons, hp', docGet, h1']
        simp only [hp', h1', Bool.false_eq_true, if_false]
        exact ih

/-- Lookup of another key sees through an appended binding. -/
theorem docGet_append_other (d : Doc) (k q : String) (v : Value) (hq : q ≠ k) :
    docGet (d ++ [(k, v)]) q = docGet d q := by
  induction d with
  | nil =>
    have h2 : ((k : String) == q) = false := by
      simp
      intro h
      exact hq h.symm
    simp [docGet, h2]
  | cons p rest ih =>
    by_cases h1 : (p.1 == q) = true
    · simp [docGet, h1]
    · simp only [docGet, List.cons_append, h1, if_false]
      exact ih

/-- Lookup after a write of a different key is unchanged. -/
theorem docGet_objSet_other (d : Doc) (k q : String) (v : Value) (hq : q ≠ k) :
    docGet (objSet d k v) q = docGet d q := by
  unfold objSet
  by_cases hf : hasKey d k = true
  · simp only [hf, if_true]
    exact docGet_map_replace_other d k q v hq
  · simp only [hf, if_false]
    exact docGet_append_other d k q v hq

/-- Deep value equality agrees with propositional equality (size-bounded
mutual statement, proved by strong induction on the size bound). -/
theorem valueEq_iff_aux :
    ∀ n : Nat,
      (∀ a b : Value, sizeOf a ≤ n → (valueEq a b = true ↔ a = b)) ∧
      (∀ xs ys : List Value, sizeOf xs ≤ n → (valueListEq xs ys = true ↔ xs = ys)) ∧
      (∀ fs gs : List (String × Value), sizeOf fs ≤ n →
        (fieldListEq fs gs = true ↔ fs = gs)) := by
  intro n
  induction n using Nat.strong_induction_on with
  | _ n ih =>
    refine ⟨?_, ?_, ?_⟩
    · intro a b ha
      cases a <;> cases b <;> simp [valueEq]
      case vArr.vArr xs ys =>
        have hx : sizeOf xs < n := by
          simp at ha
          omega
        exact (ih (sizeOf xs) hx).2.1 xs ys le_rfl
      case vObj.vObj fs gs =>
        have hx : sizeOf fs < n := by
          simp at ha
          omega
        exact (ih (sizeOf fs) hx).2.2 fs gs le_rfl
    · intro xs ys hx
      cases xs <;> cases ys <;> simp [valueListEq]
      case cons.cons x xs2 y ys2 =>
        have h1 : sizeOf x < n := by
          simp at hx
          omega
        have h2 : sizeOf xs2 < n := by
          simp at hx
          omega
        rw [(ih (sizeOf x) h1).1 x y le_rfl, (ih (sizeOf xs2) h2).2.1 xs2 ys2 le_rfl]
    · intro fs gs hf
      cases fs <;> cases gs <;> simp [fieldListEq]
      case cons.cons p ps q qs =>
        cases p with
        | mk k x =>
          cases q with
          | mk l y =>
            have h1 : sizeOf x < n := by
              simp at hf
              omega
            have h2 : sizeOf ps < n := by
              simp at hf
              omega
            simp [fieldListEq, (ih (sizeOf x) h1).1 x y le_rfl,
              (ih (sizeOf ps) h2).2.2 ps qs le_rfl]

/-- Deep value equality is propositional equality. -/
theorem valueEq_iff (a b : Value) : valueEq a b = true ↔ a = b :=
  (valueEq_iff_aux (sizeOf a)).1 a b le_rfl

/-- Deep value equality holds reflexively. -/
theorem valueEq_refl (a : Value) : valueEq a a = true :=
  (valueEq_iff a a).mpr rfl

/-- Value equality is decidable through the deep-equality function. -/
instance : DecidableEq Value :=
  fun a b => decidable_of_iff (valueEq a b = true) (valueEq_iff a b)

/-- A matched criteria object validates each of its fields. -/
theorem siftDoc_mem_cond {cs doc : Doc} {k : String} {v : Value}
    (hs : siftDoc cs doc = true) (hm : (k, v) ∈ cs) : siftCond k v doc = true := by
  induction cs with
  | nil => simp at hm
  | cons p rest ih =>
    cases p with
    | mk k2 v2 =>
      simp only [siftDoc, Bool.and_eq_true] at hs
      rcases List.mem_cons.mp hm with heq | hmem
      · cases heq
        exact hs.1
      · exact ih hs.2 hmem

/-- A satisfied scalar equality field pins the document's property at the
key's resolved path to that exact value (scalars are never `$and`/`$or`
payloads nor operator objects). -/
theorem siftCond_scalar {f : String} {v : Value} {doc : Doc}
    (hscal : isScalarJS v = true) (hc : siftCond f v doc = true) :
    docGetDotted doc f = some v := by
  rw [siftCond.eq_def] at hc
  by_cases h1 : (f == "$and") = true
  · rw [if_pos h1] at hc
    cases v with
    | vStr s => exact absurd hc (by simp)
    | vInt m => exact absurd hc (by simp)
    | vBool b => exact absurd hc (by simp)
    | vNull => simp [isScalarJS] at hscal
    | vDate ms => simp [isScalarJS] at hscal
    | vArr xs => simp [isScalarJS] at hscal
    | vObj fs => simp [isScalarJS] at hscal
  · rw [if_neg h1] at hc
    by_cases h2 : (f == "$or") = true
    · rw [if_pos h2] at hc
      cases v with
      | vStr s => exact absurd hc (by simp)
      | vInt m => exact absurd hc (by simp)
      | vBool b => exact absurd hc (by simp)
      | vNull => simp [isScalarJS] at hscal
      | vDate ms => simp [isScalarJS] at hscal
      | vArr xs => simp [isScalarJS] at hscal
      | vObj fs => simp [isScalarJS] at hscal
    · rw [if_neg h2] at hc
      have hc' : optValueEq (docGetDotted doc f) (some v) = true := by
        cases v with
        | vStr s => exact hc
        | vInt m => exact hc
        | vBool b => exact hc
        | vNull => simp [isScalarJS] at hscal
        | vDate ms => simp [isScalarJS] at hscal
        | vArr xs => simp [isScalarJS] at hscal
        | vObj fs => simp [isScalarJS] at hscal
      cases hd : docGetDotted doc f with
      | none =>
        rw [hd] at hc'
        exact absurd hc' (by simp [optValueEq])
      | some w =>
        rw [hd] at hc'
        have hw : w = v := (valueEq_iff w v).mp (by simpa [optValueEq] using hc')
        rw [hw]

/-- A successful direct lookup short-circuits `deepGet`. -/
theorem deepGet_of_docGet {d : Doc} {k : String} {v : Value}
    (h : docGet d k = some v) : deepGet d k = some v := by
  rw [deepGet.eq_def, h]

/-- A dot-free name survives the column mangling unchanged. -/
theorem mangleName_dotFree {s : String} (h : dotFree s = true) : mangleName s = s := by
  cases s with
  | mk cs =>
    simp only [dotFree, List.all_eq_true] at h
    unfold mangleName
    congr 1
    show cs.foldr (fun c acc => if c = '.' then '_' :: '_' :: acc else c :: acc) [] = cs
    induction cs with
    | nil => rfl
    | cons c rest ih =>
      have hc : ¬ c = '.' := by
        have hcm := h c (List.mem_cons_self _ _)
        simpa using hcm
      simp only [List.foldr_cons, if_neg hc]
      rw [ih (fun x hx => h x (List.mem_cons_of_mem _ hx))]

/-- A dot-free character list splits into its single segment. -/
theorem splitChars_noDot {cs : List Char} (h : ∀ c ∈ cs, ¬ c = '.') :
    splitChars cs = [cs] := by
  induction cs with
  | nil => rfl
  | cons c rest ih =>
    have hrest := ih (fun x hx => h x (List.mem_cons_of_mem _ hx))
    simp only [splitChars, hrest]
    simp [h c (List.mem_cons_self _ _)]

/-- A dot-free key splits into the single-segment path. -/
theorem splitPath_dotFree {s : String} (h : dotFree s = true) : splitPath s = [s] := by
  cases s with
  | mk cs =>
    have hh : ∀ c ∈ cs, ¬ c = '.' := by
      simp only [dotFree, List.all_eq_true] at h
      intro c hc
      simpa using h c hc
    show (splitChars cs).map (fun l => String.mk l) = [String.mk cs]
    rw [splitChars_noDot hh]
    rfl

/-- Dotted resolution of a dot-free key is the plain top-level lookup. -/
theorem docGetDotted_dotFree {d : Doc} {k : String} (h : dotFree k = true) :
    docGetDotted d k = docGet d k := by
  unfold docGetDotted
  rw [splitPath_dotFree h]
  rfl

/-- Key lemma of pushdown soundness: when the matcher accepts a document,
every scalar value `deepGet` extracts from the criteria (directly or through
`$and` branches) is the document's actual value at that key's resolved
path.  Stated
size-bounded together with the `$and`-branch walk for the strong induction. -/
theorem sift_deepGet_aux :
    ∀ n : Nat,
      (∀ criteria doc f v, sizeOf criteria ≤ n → siftDoc criteria doc = true →
        deepGet criteria f = some v → isScalarJS v = true → docGetDotted doc f = some v) ∧
      (∀ vs doc f v, sizeOf vs ≤ n → siftAll vs doc = true →
        deepGetArr vs f = some v → isScalarJS v = true → docGetDotted doc f = some v) := by
  intro n
  induction n using Nat.strong_induction_on with
  | _ n ih =>
    constructor
    · intro criteria doc f v hsz hsift hdeep hscal
      rw [deepGet.eq_def] at hdeep
      cases hg : docGet criteria f with
      | some w =>
        rw [hg] at hdeep
        simp only [Option.some.injEq] at hdeep
        subst hdeep
        exact siftCond_scalar hscal (siftDoc_mem_cond hsift (docGet_mem hg))
      | none =>
        rw [hg] at hdeep
        cases hand : docGet criteria "$and" with
        | none => rw [hand] at hdeep; simp at hdeep
        | some av =>
          rw [hand] at hdeep
          cases av with
          | vArr vs =>
            have hcond := siftDoc_mem_cond hsift (docGet_mem hand)
            have hall : siftAll vs doc = true := by
              rw [siftCond.eq_def] at hcond
              simpa using hcond
            have hlt : sizeOf vs < n := by
              have := sizeOf_docGet hand
              simp at this
              omega
            exact (ih (sizeOf vs) hlt).2 vs doc f v le_rfl hall hdeep hscal
          | vObj fs =>
            have hcond := siftDoc_mem_cond hsift (docGet_mem hand)
            rw [siftCond.eq_def] at hcond
            simp at hcond
          | vStr s => simp at hdeep
          | vInt m => simp at hdeep
          | vBool b => simp at hdeep
          | vNull => simp at hdeep
          | vDate ms => simp at hdeep
    · intro vs doc f v hsz hall hdeep hscal
      cases vs with
      | nil => simp [deepGetArr.eq_def] at hdeep
      | cons x rest =>
        cases x with
        | vObj c =>
          rw [deepGetArr.eq_2] at hdeep
          have hparts : siftDoc c doc = true ∧ siftAll rest doc = true := by
            rw [siftAll.eq_2] at hall
            simpa using hall
          cases hdc : deepGet c f with
          | some r =>
            rw [hdc] at hdeep
            simp only [Option.some.injEq] at hdeep
            subst hdeep
            have hlt : sizeOf c < n := by
              simp at hsz
              omega
            exact (ih (sizeOf c) hlt).1 c doc f r le_rfl hparts.1 hdc hscal
          | none =>
            rw [hdc] at hdeep
            have hlt : sizeOf rest < n := by
              simp at hsz
              omega
            exact (ih (sizeOf rest) hlt).2 rest doc f v le_rfl hparts.2 hdeep hscal
        | vStr s => rw [siftAll.eq_def] at hall; simp at hall
        | vInt m => rw [siftAll.eq_def] at hall; simp at hall
        | vBool b => rw [siftAll.eq_def] at hall; simp at hall
        | vNull => rw [siftAll.eq_def] at hall; simp at hall
        | vDate ms => rw [siftAll.eq_def] at hall; simp at hall
        | vArr ys => rw [siftAll.eq_def] at hall; simp at hall

/-- Closed form of the key pushdown-soundness lemma. -/
theorem sift_deepGet {criteria doc : Doc} {f : String} {v : Value}
    (hsift : siftDoc criteria doc = true) (hdeep : deepGet criteria f = some v)
    (hscal : isScalarJS v = true) : docGetDotted doc f = some v :=
  (sift_deepGet_aux (sizeOf criteria)).1 criteria doc f v le_rfl hsift hdeep hscal

/-- A pushed equality condition originates from an index field whose
criteria value is a defined scalar. -/
theorem pushedFields_mem {criteria : Doc} {fields : List (String × Int)}
    {c : String} {v : Value} (h : (c, v) ∈ pushedFields criteria fields) :
    (∃ d, (c, d) ∈ fields) ∧ deepGet criteria c = some v ∧ isScalarJS v = true := by
  induction fields with
  | nil => simp [pushedFields] at h
  | cons fd rest ih =>
    cases fd with
    | mk f d =>
      cases hg : deepGet criteria f with
      | none => simp [pushedFields, hg] at h
      | some w =>
        simp only [pushedFields, hg] at h
        by_cases hs : isScalarJS w = true
        · simp only [hs, if_true, List.mem_cons] at h
          rcases h with heq | hmem
          · obtain ⟨rfl, rfl⟩ := Prod.mk.injEq .. ▸ heq
            refine ⟨⟨d, List.mem_cons_self _ _⟩, hg, hs⟩
          · obtain ⟨⟨d2, hd2⟩, hrest⟩ := ih hmem
            exact ⟨⟨d2, List.mem_cons_of_mem _ hd2⟩, hrest⟩
        · simp only [hs, if_false] at h
          simp at h

/-- A pushed condition of the whole plan originates from some index. -/
theorem pushedConds_mem {indexes : List Index} {criteria : Doc}
    {c : String} {v : Value} (h : (c, v) ∈ pushedConds indexes criteria) :
    ∃ i ∈ indexes, (c, v) ∈ pushedFields criteria i.fields := by
  induction indexes with
  | nil => simp [pushedConds] at h
  | cons i rest ih =>
    simp only [pushedConds, List.foldr_cons] at h
    rcases List.mem_append.mp h with h1 | h2
    · exact ⟨i, List.mem_cons_self _ _, h1⟩
    · obtain ⟨j, hj, hm⟩ := ih h2
      exact ⟨j, List.mem_cons_of_mem _ hj, hm⟩

/-- Pushdown soundness per row, for dot-free index fields (where the pushed
raw name, the mangled column and the matcher's path all coincide): a
consistent row whose decoded document the matcher accepts satisfies every
pushed equality condition. -/
theorem rowSatisfies_of_sift {indexes : List Index} {criteria : Doc} {r : Row}
    (hdot : ∀ i ∈ indexes, ∀ fd ∈ i.fields, dotFree fd.1 = true)
    (hc : rowConsistent indexes r) (hs : siftDoc criteria r.blob = true) :
    rowSatisfies r (pushedConds indexes criteria) = true := by
  simp only [rowSatisfies, List.all_eq_true]
  intro cnd hcnd
  obtain ⟨i, hi, hm⟩ := pushedConds_mem hcnd
  obtain ⟨⟨d, hfd⟩, hdg, hsc⟩ := pushedFields_mem hm
  have hdf : dotFree cnd.1 = true := hdot i hi (cnd.1, d) hfd
  have hblob : docGet r.blob cnd.1 = some cnd.2 := by
    rw [← docGetDotted_dotFree hdf]
    exact sift_deepGet hs hdg hsc
  have hkey : docGet r.cols (mangleName cnd.1) = deepGet r.blob cnd.1 :=
    hc i hi (cnd.1, d) hfd
  rw [mangleName_dotFree hdf] at hkey
  rw [hkey, deepGet_of_docGet hblob]
  simp [valueEq_refl]

/-- On a consistent table with dot-free index fields, the planner's
pushdown-plus-residual-filter pipeline returns exactly the matcher-filtered
decoded documents. -/
theorem toArray_all_eq_sift (t : List Row) (indexes : List Index) (criteria : Doc)
    (hdot : ∀ i ∈ indexes, ∀ fd ∈ i.fields, dotFree fd.1 = true)
    (hcons : ∀ r ∈ t, rowConsistent indexes r) :
    toArrayModel t indexes criteria 0 0
      = (t.filter (fun r => siftDoc criteria r.blob)).map Row.blob := by
  simp only [toArrayModel, bne_self_eq_false, if_false, Bool.false_eq_true]
  rw [List.filter_filter]
  congr 1
  apply List.filter_congr
  intro r hr
  by_cases hs : siftDoc criteria r.blob = true
  · simp [hs, rowSatisfies_of_sift hdot (hcons r hr) hs]
  · simp only [Bool.eq_false_iff, ne_eq] at hs
    simp [Bool.eq_false_iff.mpr hs]

/-- With every index field in the table schema, the engine's unknown-column
check passes and the query runs. -/
theorem pushedConds_all_in_schema (schema : List String) (indexes : List Index)
    (criteria : Doc)
    (hschema : ∀ i ∈ indexes, ∀ fd ∈ i.fields, schema.contains fd.1 = true) :
    (pushedConds indexes criteria).find? (fun c => !(schema.contains c.1)) = none := by
  rw [List.find?_eq_none]
  intro c hcm
  obtain ⟨i, hi, hm⟩ := pushedConds_mem hcm
  obtain ⟨⟨d, hfd⟩, _, _⟩ := pushedFields_mem hm
  simpa using hschema i hi (c.1, d) hfd

/-- Claim C1, counterexample: the pushdown equivalence fails as stated, for
it quantifies over every collection state and index set.  First conjunct: a
row inserted before `createIndex({fur: 1})` has a NULL `fur` column (knex's
add-column backfills nothing), so with the index registered the pushed
`WHERE fur = 'black'` excludes the row while the index-free query returns it
through the matcher.  Second and third conjuncts: for an index on the dotted
path `a.b`, the pushdown issues the raw name `a.b` (src/index.js line 348)
but the table only has the mangled column `a__b` (line 80), so the indexed
`find({'a.b': 'c'})` fails with the engine's `no such column` error while
the index-free query succeeds and returns the matching document. -/
theorem pushdown_stale_column_counterexample :
    toArrayEngine catSchema [staleRow] [idIndex, furIndex] furCriteria 0 0
      ≠ toArrayEngine catSchema [staleRow] [idIndex] furCriteria 0 0 ∧
    toArrayEngine ["_id", "_ext_json", "a__b"]
        [{ cols := [("_id", Value.vStr "1")]
         , blob := [("a", Value.vObj [("b", Value.vStr "c")])] }]
        [idIndex, { fields := [("a.b", 1)], unique := false }]
        [("a.b", Value.vStr "c")] 0 0
      = Except.error (noSuchColumnErr "a.b") ∧
    toArrayEngine ["_id", "_ext_json", "a__b"]
        [{ cols := [("_id", Value.vStr "1")]
         , blob := [("a", Value.vObj [("b", Value.vStr "c")])] }]
        [idIndex]
        [("a.b", Value.vStr "c")] 0 0
      = Except.ok [[("a", Value.vObj [("b", Value.vStr "c")])]] := by
  refine ⟨?_, ?_, ?_⟩
  · simp [toArrayEngine, toArrayModel, pushedConds, pushedFields, idIndex, furIndex,
      staleRow, furCriteria, catSchema, deepGet.eq_def, docGet, docGetDotted,
      splitPath, splitChars, docGetPath, rowSatisfies, siftDoc, siftCond,
      optValueEq, valueEq, isScalarJS, List.filter, List.find?]
  · simp [toArrayEngine, pushedConds, pushedFields, idIndex, deepGet.eq_def, docGet,
      isScalarJS, List.find?]
  · simp [toArrayEngine, toArrayModel, pushedConds, pushedFields, idIndex,
      deepGet.eq_def, docGet, docGetDotted, splitPath, splitChars, docGetPath,
      rowSatisfies, siftDoc, siftCond, optValueEq, valueEq, isScalarJS,
      List.filter, List.find?]

/-- Claim C1 (amended): for every predicate, every index set whose fields
are dot-free (top-level) property names and backed by table columns, and
every collection state CONSISTENT with those indexes — each row's promoted
column, stored under the field's mangled name, holds exactly `deepGet` of
its decoded document, as the write path establishes for rows written under
those indexes — `find(P).toArray()` with the indexes registered returns
exactly the documents it returns with only the implicit `_id` index: the
equality-prefix pushdown plus the in-memory residual filter selects the same
final documents as decoding every row and running the matcher alone, and the
engine raises no missing-column error.  Both restrictions are forced by the
source: rows written before `createIndex` violate consistency (the
counterexample), and for a dotted index field the pushdown issues the raw
name (src/index.js line 348) against a column created mangled (line 80), so
the indexed `find()` throws `no such column` while the index-free query
succeeds. -/
theorem pushdown_equivalence_consistent (schema : List String) (t : List Row)
    (indexes : List Index) (criteria : Doc)
    (hdot : ∀ i ∈ idIndex :: indexes, ∀ fd ∈ i.fields, dotFree fd.1 = true)
    (hschema : ∀ i ∈ idIndex :: indexes, ∀ fd ∈ i.fields, schema.contains fd.1 = true)
    (hc : ∀ r ∈ t, rowConsistent (idIndex :: indexes) r) :
    toArrayEngine schema t (idIndex :: indexes) criteria 0 0
      = toArrayEngine schema t [idIndex] criteria 0 0 := by
  have hdot2 : ∀ i ∈ [idIndex], ∀ fd ∈ i.fields, dotFree fd.1 = true := by
    intro i hi
    have hi' : i = idIndex := List.mem_singleton.mp hi
    subst hi'
    exact hdot idIndex (List.mem_cons_self _ _)
  have hschema2 : ∀ i ∈ [idIndex], ∀ fd ∈ i.fields, schema.contains fd.1 = true := by
    intro i hi
    have hi' : i = idIndex := List.mem_singleton.mp hi
    subst hi'
    exact hschema idIndex (List.mem_cons_self _ _)
  have hc2 : ∀ r ∈ t, rowConsistent [idIndex] r := by
    intro r hr i hi
    have hi' : i = idIndex := List.mem_singleton.mp hi
    subst hi'
    exact hc r hr idIndex (List.mem_cons_self _ _)
  unfold toArrayEngine
  rw [pushedConds_all_in_schema schema (idIndex :: indexes) criteria hschema,
      pushedConds_all_in_schema schema [idIndex] criteria hschema2,
      toArray_all_eq_sift t (idIndex :: indexes) criteria hdot hc,
      toArray_all_eq_sift t [idIndex] criteria hdot2 hc2]

/-- Claim C1, witness: the amended pushdown equivalence applied to a
consistent one-row collection with a dot-free, schema-backed index on
`fur`. -/
theorem pushdown_equivalence_consistent_witness :
    (∀ i ∈ idIndex :: [furIndex], ∀ fd ∈ i.fields, dotFree fd.1 = true) ∧
    (∀ i ∈ idIndex :: [furIndex], ∀ fd ∈ i.fields, catSchema.contains fd.1 = true) ∧
    (∀ r ∈ [pypyRow], rowConsistent (idIndex :: [furIndex]) r) ∧
    toArrayEngine catSchema [pypyRow] (idIndex :: [furIndex]) furCriteria 0 0
      = toArrayEngine catSchema [pypyRow] [idIndex] furCriteria 0 0 := by
  have hdot : ∀ i ∈ idIndex :: [furIndex], ∀ fd ∈ i.fields, dotFree fd.1 = true := by
    intro i hi fd hfd
    simp only [List.mem_cons, List.mem_singleton, List.not_mem_nil, or_false] at hi
    rcases hi with rfl | rfl
    · simp only [idIndex, List.mem_singleton] at hfd
      subst hfd
      decide
    · simp only [furIndex, List.mem_singleton] at hfd
      subst hfd
      decide
  have hschema : ∀ i ∈ idIndex :: [furIndex], ∀ fd ∈ i.fields,
      catSchema.contains fd.1 = true := by
    intro i hi fd hfd
    simp only [List.mem_cons, List.mem_singleton, List.not_mem_nil, or_false] at hi
    rcases hi with rfl | rfl
    · simp only [idIndex, List.mem_singleton] at hfd
      subst hfd
      decide
    · simp only [furIndex, List.mem_singleton] at hfd
      subst hfd
      decide
  have hcons : ∀ r ∈ [pypyRow], rowConsistent (idIndex :: [furIndex]) r := by
    intro r hr
    simp only [List.mem_singleton] at hr
    subst hr
    intro i hi fd hfd
    simp only [List.mem_cons, List.mem_singleton, List.not_mem_nil, or_false] at hi
    rcases hi with rfl | rfl
    · simp only [idIndex, List.mem_singleton] at hfd
      subst hfd
      simp [pypyRow, docGet, deepGet.eq_def, mangleName]
    · simp only [furIndex, List.mem_singleton] at hfd
      subst hfd
      simp [pypyRow, docGet, deepGet.eq_def, mangleName]
  exact ⟨hdot, hschema, hcons, pushdown_equivalence_consistent _ _ _ _ hdot hschema hcons⟩

/-- Claim C2: false on the code.  `toArray` (src/index.js line 359) returns
`EJSON.parse(row._ext_json)` for each surviving row and never deep-sets any
promoted column back into the decoded document, although the README's design
notes promise exactly that on all reads.  On a row whose `a__b` column holds
the value `new` while the blob's nested `a.b` holds the stale value `stale`,
`find({})` returns the document with the stale value. -/
theorem read_ignores_promoted_columns :
    toArrayModel
      [{ cols := [("_id", Value.vStr "r1"), ("a__b", Value.vStr "new")]
       , blob := [("_id", Value.vStr "r1"), ("a", Value.vObj [("b", Value.vStr "stale")])] }]
      [idIndex, { fields := [("a.b", 1)], unique := false }]
      [] 0 0
      = [[("_id", Value.vStr "r1"), ("a", Value.vObj [("b", Value.vStr "stale")])]] := by
  simp [toArrayModel, pushedConds, pushedFields, idIndex, deepGet.eq_def, docGet,
    rowSatisfies, siftDoc, List.filter]

/-- Claim C4: false on the code.  `$addToSet` executes
`doc[prop] = [...new Set(doc[prop] || [], added)]` (src/index.js line 275);
the `Set` constructor takes one iterable and `added` occupies an ignored
argument position, so the value is never appended.  Adding `'x'` to an empty
`tags` once and then a second time leaves `tags` empty both times, where
MongoDB semantics (and the spec) require exactly one occurrence. -/
theorem addToSet_never_appends :
    applyOperations [("tags", Value.vArr [])]
        [("$addToSet", Value.vObj [("tags", Value.vStr "x")])] 0
      = Except.ok [("tags", Value.vArr [])] ∧
    (do
      let d1 ← applyOperations [("tags", Value.vArr [])]
        [("$addToSet", Value.vObj [("tags", Value.vStr "x")])] 0
      applyOperations d1 [("$addToSet", Value.vObj [("tags", Value.vStr "x")])] 0)
      = Except.ok [("tags", Value.vArr [])] := by
  constructor
  · simp [applyOperations, rewriteCurrentDate, docGet, applyOp, dedupJs, objSet,
      hasKey, jsStrictEq, jsTruthy, List.foldlM]
  · simp [applyOperations, rewriteCurrentDate, docGet, applyOp, dedupJs, objSet,
      hasKey, jsStrictEq, jsTruthy, List.foldlM, Bind.bind, Except.bind,
      Pure.pure, Except.pure]

/-- Claim C5, counterexample: `$pull` on a property absent from the document
is not a no-op.  The source always assigns
`doc[prop] = (doc[prop] || []).filter(...)` (src/index.js line 270), so a
document without `p` gains `p: []`. -/
theorem pull_absent_counterexample :
    applyOperations [] [("$pull", Value.vObj [("p", Value.vStr "x")])] 0
      = Except.ok [("p", Value.vArr [])] ∧
    ([("p", Value.vArr [])] : Doc) ≠ [] := by
  constructor
  · simp [applyOperations, rewriteCurrentDate, docGet, applyOp, objSet,
      hasKey, jsTruthy, List.foldlM]
  · simp

/-- Claim C5 (amended): `$pull` with a scalar value removes from the sequence
at `p` exactly the strict-equal occurrences of that value (strict equality
coincides with exact equality on scalars, third conjunct); when `p` is
absent, instead of leaving the document unchanged it stores an empty
sequence at `p`. -/
theorem pull_removes_all_and_seeds_empty (doc : Doc) (p : String) (v : Value)
    (now : Int) (hv : isScalarJS v = true) :
    (docGet doc p = none →
      applyOperations doc [("$pull", Value.vObj [(p, v)])] now
        = Except.ok (doc ++ [(p, Value.vArr [])])) ∧
    (∀ xs, docGet doc p = some (Value.vArr xs) →
      applyOperations doc [("$pull", Value.vObj [(p, v)])] now
        = Except.ok (objSet doc p (Value.vArr (xs.filter (fun x => !(jsStrictEq x v)))))) ∧
    (∀ x, jsStrictEq x v = true ↔ x = v) := by
  refine ⟨?_, ?_, ?_⟩
  · intro hnone
    have hobj : objSet doc p (Value.vArr []) = doc ++ [(p, Value.vArr [])] := by
      unfold objSet
      have hk : hasKey doc p = false := by
        induction doc with
        | nil => simp [hasKey]
        | cons q rest ih =>
          simp only [docGet] at hnone
          by_cases hq : (q.1 == p) = true
          · simp [hq] at hnone
          · simp only [hq] at hnone
            simp only [hasKey, hq, Bool.false_or]
            exact ih (by simpa [hq] using hnone)
      simp [hk]
    simp [applyOperations, rewriteCurrentDate, docGet, applyOp, List.foldlM, hnone, hobj]
  · intro xs hsome
    simp [applyOperations, rewriteCurrentDate, docGet, applyOp, List.foldlM, hsome]
    by_cases ht : jsTruthy (Value.vArr xs) = true
    · simp [ht]
    · simp [jsTruthy] at ht
  · intro x
    cases v with
    | vStr s => cases x <;> simp [jsStrictEq]
    | vInt m => cases x <;> simp [jsStrictEq]
    | vBool b => cases x <;> simp [jsStrictEq]
    | vNull => simp [isScalarJS] at hv
    | vDate ms => simp [isScalarJS] at hv
    | vArr xs => simp [isScalarJS] at hv
    | vObj fs => simp [isScalarJS] at hv

/-- Claim C5, witness: pulling `'x'` from `{p: ['x','y','x']}` removes both
occurrences and keeps `'y'`. -/
theorem pull_removes_all_witness :
    isScalarJS (Value.vStr "x") = true ∧
    applyOperations [("p", Value.vArr [Value.vStr "x", Value.vStr "y", Value.vStr "x"])]
        [("$pull", Value.vObj [("p", Value.vStr "x")])] 0
      = Except.ok [("p", Value.vArr [Value.vStr "y"])] := by
  refine ⟨by simp [isScalarJS], ?_⟩
  have h := (pull_removes_all_and_seeds_empty
      [("p", Value.vArr [Value.vStr "x", Value.vStr "y", Value.vStr "x"])]
      "p" (Value.vStr "x") 0 (by simp [isScalarJS])).2.1
      [Value.vStr "x", Value.vStr "y", Value.vStr "x"] (by simp [docGet])
  rw [h]
  simp [objSet, hasKey, jsStrictEq, List.filter]

/-- Claim C6, counterexample: `limit(0)` is not a truncation to zero
elements.  `if (limitParam)` treats 0 as unset (the MongoDB convention), so
`find({}).skip(0).limit(0)` returns every document, where the claim's
drop-then-take reading demands the empty list. -/
theorem limit_zero_counterexample :
    toArrayModel [staleRow] [idIndex] [] 0 0
      ≠ List.take 0 (List.drop 0 (toArrayModel [staleRow] [idIndex] [] 0 0)) := by
  simp [toArrayModel, pushedConds, pushedFields, idIndex, staleRow,
    deepGet.eq_def, docGet, rowSatisfies, siftDoc, List.filter]

/-- Claim C6 (amended): `find(P).skip(s).limit(l).toArray()` issues no OFFSET
or LIMIT to the relational engine; it fully filters the decoded rows with the
in-memory matcher and only then drops the first `s` elements and truncates to
`l`.  For every nonzero limit `l` the result equals take `l` of drop `s` of
`find(P).toArray()`; a limit of 0 (like an unset limit) is falsy in JS and
applies no truncation. -/
theorem skip_limit_post_filter (t : List Row) (indexes : List Index)
    (criteria : Doc) (s l : Nat) (hl : l ≠ 0) :
    toArrayModel t indexes criteria s l
      = ((toArrayModel t indexes criteria 0 0).drop s).take l := by
  by_cases hs : s = 0
  · subst hs
    simp [toArrayModel, hl]
  · simp [toArrayModel, hs, hl]

/-- Claim C6, witness: skip 1, limit 1 over a three-row collection picks the
second filtered document. -/
theorem skip_limit_post_filter_witness :
    (1 : Nat) ≠ 0 ∧
    toArrayModel [staleRow, pypyRow, staleRow] [idIndex] [] 1 1
      = ((toArrayModel [staleRow, pypyRow, staleRow] [idIndex] [] 0 0).drop 1).take 1 :=
  ⟨by decide, skip_limit_post_filter [staleRow, pypyRow, staleRow] [idIndex] [] 1 1 (by decide)⟩

/-- Claim C7: false on the code.  `updateMany` (src/index.js lines 289-300)
runs `updateBody` over every match and then falls off the end of the
function with no return statement, so the caller receives `undefined`
(`none`) rather than a result descriptor; every sibling mutator does return
one.  Evaluated at a one-row collection matched by `{}` under the operation
`{$set: {fur: 'white'}}`. -/
theorem updateMany_returns_no_descriptor :
    updateManyModel [pypyRow] [idIndex] [] [("$set", Value.vObj [("fur", Value.vStr "white")])]
        false 0 "gen"
      = Except.ok
          ( [{ cols := [("_id", Value.vStr "1"), ("fur", Value.vStr "black")]
             , blob := [("_id", Value.vStr "1"), ("fur", Value.vStr "white")] }]
          , none ) := by
  simp [updateManyModel, toArrayModel, pushedConds, pushedFields, idIndex, pypyRow,
    deepGet.eq_def, docGet, rowSatisfies, siftDoc, List.filter, List.foldlM,
    updateBodyModel, applyOperations, rewriteCurrentDate, applyOp, objSet, hasKey,
    prepareForUpdate, applyRowUpdate, optValueEq, valueEq, mangleName, Bind.bind,
    Except.bind, Pure.pure, Except.pure, Except.map]

/-- Limit-1 queries truncate the fully filtered result, nothing else. -/
theorem toArray_limit_take (t : List Row) (indexes : List Index) (criteria : Doc) :
    toArrayModel t indexes criteria 0 1 = (toArrayModel t indexes criteria 0 0).take 1 := by
  simp [toArrayModel]

/-- A filter and its complement partition a list's length. -/
theorem length_filter_not_add {α} (p : α → Bool) (l : List α) :
    (l.filter p).length + (l.filter (fun x => !(p x))).length = l.length := by
  induction l with
  | nil => rfl
  | cons x rest ih =>
    by_cases hp : p x = true <;> simp [hp, ← ih] <;> omega

/-- With `_id` column values pairwise distinct (the primary-key invariant),
at most one row answers to a given id value. -/
theorem hit_filter_le_one (a : Value) :
    ∀ t : List Row, (t.map (fun r => docGet r.cols "_id")).Nodup →
    (t.filter (fun r => idHit (some a) r)).length ≤ 1 := by
  intro t
  induction t with
  | nil => simp
  | cons r rest ih =>
    intro hnd
    simp only [List.map_cons, List.nodup_cons] at hnd
    by_cases hr : idHit (some a) r = true
    · rw [List.filter_cons]
      simp only [hr, if_true]
      have hrest : rest.filter (fun r2 => idHit (some a) r2) = [] := by
        rw [List.filter_eq_nil]
        intro r2 hr2 hhit
        unfold idHit at hr hhit
        cases hb : docGet r.cols "_id" with
        | none => rw [hb] at hr; simp at hr
        | some b =>
          rw [hb] at hr
          have hab : a = b := (valueEq_iff a b).mp hr
          cases hb2 : docGet r2.cols "_id" with
          | none => rw [hb2] at hhit; simp at hhit
          | some b2 =>
            rw [hb2] at hhit
            have hab2 : a = b2 := (valueEq_iff a b2).mp hhit
            apply hnd.1
            rw [hb]
            have hbb2 : b = b2 := by rw [← hab, hab2]
            rw [hbb2, ← hb2]
            exact List.mem_map_of_mem (fun r3 => docGet r3.cols "_id") hr2
      rw [hrest]
      simp
    · have hr' : idHit (some a) r = false := by simpa using hr
      rw [List.filter_cons]
      simp only [hr', Bool.false_eq_true, if_false]
      exact ih hnd.2

/-- Claim C9: `deleteMany` (and `removeMany`, a pure delegation) selects its
matches through `limit(1)`, so on any table whose `_id` column values are
pairwise distinct (the primary-key invariant) it removes at most one row and
reports `nDeleted ≤ 1`, no matter how many stored documents match. -/
theorem deleteMany_at_most_one (t : List Row) (indexes : List Index) (criteria : Doc)
    (hnd : (t.map (fun r => docGet r.cols "_id")).Nodup) :
    ∃ keep n, deleteManyModel t indexes criteria = (keep, ResultDescriptor.deleted n)
      ∧ n ≤ 1 ∧ t.length = keep.length + n
      ∧ removeManyModel t indexes criteria = (keep, ResultDescriptor.deleted n) := by
  rcases hm : toArrayModel t indexes criteria 0 1 with _ | ⟨d0, rest0⟩
  · refine ⟨t, 0, ?_, by omega, by omega, ?_⟩
    · simp [deleteManyModel, hm]
    · simp [removeManyModel, deleteManyModel, hm]
  · have hrest : rest0 = [] := by
      have hlen := congrArg List.length hm
      rw [toArray_limit_take] at hlen
      simp [List.length_take] at hlen
      cases rest0 with
      | nil => rfl
      | cons x xs => simp at hlen; omega
    subst hrest
    have hfin : (t.filter (fun r => idHit (docGet d0 "_id") r)).length
        + (t.filter (fun r => !(idHit (docGet d0 "_id") r))).length = t.length :=
      length_filter_not_add _ t
    have hle : (t.filter (fun r => idHit (docGet d0 "_id") r)).length ≤ 1 := by
      cases hid : docGet d0 "_id" with
      | none =>
        have hz : t.filter (fun r => idHit none r) = [] := by
          rw [List.filter_eq_nil]
          intro r hr
          simp [idHit]
        rw [hz]
        simp
      | some a => exact hit_filter_le_one a t hnd
    refine ⟨t.filter (fun r => !(idHit (docGet d0 "_id") r)),
      (t.filter (fun r => idHit (docGet d0 "_id") r)).length, ?_, hle, by omega, ?_⟩
    · simp only [deleteManyModel, hm]
      simp only [List.map_cons, List.map_nil, List.isEmpty_cons, if_false,
        Bool.false_eq_true, List.any_cons, List.any_nil, Bool.or_false]
      have hn : t.length - (t.filter (fun r => !(idHit (docGet d0 "_id") r))).length
          = (t.filter (fun r => idHit (docGet d0 "_id") r)).length := by omega
      rw [hn]
    · simp only [removeManyModel, deleteManyModel, hm]
      simp only [List.map_cons, List.map_nil, List.isEmpty_cons, if_false,
        Bool.false_eq_true, List.any_cons, List.any_nil, Bool.or_false]
      have hn : t.length - (t.filter (fun r => !(idHit (docGet d0 "_id") r))).length
          = (t.filter (fun r => idHit (docGet d0 "_id") r)).length := by omega
      rw [hn]

/-- Claim C9, witness: with two stored documents both matching
`{fur: 'black'}`, `deleteMany` still deletes at most one of them. -/
theorem deleteMany_at_most_one_witness :
    (([pypyRow, spikeRow] : List Row).map (fun r => docGet r.cols "_id")).Nodup ∧
    (∃ keep n,
      deleteManyModel [pypyRow, spikeRow] [idIndex] furCriteria
        = (keep, ResultDescriptor.deleted n)
      ∧ n ≤ 1 ∧ ([pypyRow, spikeRow] : List Row).length = keep.length + n
      ∧ removeManyModel [pypyRow, spikeRow] [idIndex] furCriteria
        = (keep, ResultDescriptor.deleted n)) := by
  have hnd : (([pypyRow, spikeRow] : List Row).map (fun r => docGet r.cols "_id")).Nodup := by
    simp [pypyRow, spikeRow, docGet]
  exact ⟨hnd, deleteMany_at_most_one _ _ _ hnd⟩

/-- Claim C10: when `insertOne` receives a document without an `_id`, the
generated id lands only in the row's `_id` column; the blob is serialized
from the document before any id is chosen, so it holds no `_id`, and every
document `find`/`findOne` later returns for that row (decoded from the blob
alone) has no `_id` either.  The hypothesis is stated through `deepGet`, the
lookup the write path actually performs on the document. -/
theorem insert_generated_id_not_in_blob (indexes : List Index) (doc : Doc)
    (genId : String) (h : deepGet doc "_id" = none) :
    docGet (prepareForInsert indexes doc genId).cols "_id" = some (Value.vStr genId) ∧
    (prepareForInsert indexes doc genId).blob = doc ∧
    docGet (prepareForInsert indexes doc genId).blob "_id" = none ∧
    ∀ criteria d, d ∈ toArrayModel [prepareForInsert indexes doc genId] indexes criteria 0 0 →
      docGet d "_id" = none := by
  have hdg : docGet doc "_id" = none := by
    rw [deepGet.eq_def] at h
    cases hg : docGet doc "_id" with
    | none => rfl
    | some w => rw [hg] at h; simp at h
  refine ⟨?_, rfl, hdg, ?_⟩
  · simp only [prepareForInsert, hdg]
    exact docGet_objSet_self _ _ _
  · intro criteria d hd
    simp only [toArrayModel] at hd
    simp only [bne_self_eq_false, Bool.false_eq_true, if_false] at hd
    rcases List.mem_map.mp hd with ⟨r, hr, hblob⟩
    have hrr : r = prepareForInsert indexes doc genId :=
      List.mem_singleton.mp (List.mem_of_mem_filter (List.mem_of_mem_filter hr))
    subst hrr
    rw [← hblob]
    exact hdg

/-- Claim C10, witness: inserting `{name: 'pypy'}` stores the generated id
`abc` in the `_id` column only, and `find({})` returns the document without
any `_id`. -/
theorem insert_generated_id_not_in_blob_witness :
    deepGet [("name", Value.vStr "pypy")] "_id" = none ∧
    (docGet (prepareForInsert [idIndex] [("name", Value.vStr "pypy")] "abc").cols "_id"
        = some (Value.vStr "abc") ∧
      (prepareForInsert [idIndex] [("name", Value.vStr "pypy")] "abc").blob
        = [("name", Value.vStr "pypy")] ∧
      docGet (prepareForInsert [idIndex] [("name", Value.vStr "pypy")] "abc").blob "_id"
        = none ∧
      ∀ criteria d,
        d ∈ toArrayModel [prepareForInsert [idIndex] [("name", Value.vStr "pypy")] "abc"]
          [idIndex] criteria 0 0 →
        docGet d "_id" = none) := by
  have h : deepGet [("name", Value.vStr "pypy")] "_id" = none := by
    simp [deepGet.eq_def, docGet]
  exact ⟨h, insert_generated_id_not_in_blob [idIndex] [("name", Value.vStr "pypy")] "abc" h⟩

/-- Claim C8, counterexample: the conflict translation is not
backend-agnostic.  `compatibleError` matches only sqlite's
`SQLITE_CONSTRAINT`; a MySQL duplicate-entry error (`ER_DUP_ENTRY`) passes
through unchanged, so its surfaced code is not the stable 11000. -/
theorem compatibleError_mysql_counterexample :
    compatibleError { code := ErrCode.mysqlDupEntry, message := "ER_DUP_ENTRY" }
      = { code := ErrCode.mysqlDupEntry, message := "ER_DUP_ENTRY" } ∧
    ErrCode.mysqlDupEntry ≠ ErrCode.dup11000 := by
  constructor
  · simp [compatibleError]
  · simp

/-- Claim C8 (amended): when the backend is sqlite — uniqueness failures
carry code `SQLITE_CONSTRAINT` — an `insertOne` whose prepared row conflicts
with a stored row on the primary key or a unique index surfaces the
translated stable conflict error, code 11000 with message `Not Unique`, and
produces no new state: the collection keeps exactly its previous rows. -/
theorem sqlite_unique_conflict_translated (t : List Row) (indexes : List Index)
    (doc : Doc) (genId : String)
    (hc : t.any (fun r => uniqueConflict r (prepareForInsert indexes doc genId) indexes)
      = true) :
    insertOneModel t indexes doc genId
      = Except.error { code := ErrCode.dup11000, message := "Not Unique" } := by
  simp only [insertOneModel, hc, if_true]
  simp [compatibleError]

/-- Claim C8, witness: inserting two cats with the same uniquely-indexed
`fur` value succeeds once, fails the second time with the translated 11000
error, and the collection still holds exactly one black-fur row. -/
theorem sqlite_unique_conflict_translated_witness :
    insertOneModel [] [idIndex, furUniqueIndex]
        [("_id", Value.vStr "1"), ("fur", Value.vStr "black")] "g1"
      = Except.ok ([pypyRow], ResultDescriptor.modified 1) ∧
    ([pypyRow].any (fun r => uniqueConflict r
        (prepareForInsert [idIndex, furUniqueIndex]
          [("_id", Value.vStr "2"), ("fur", Value.vStr "black")] "g2")
        [idIndex, furUniqueIndex])) = true ∧
    insertOneModel [pypyRow] [idIndex, furUniqueIndex]
        [("_id", Value.vStr "2"), ("fur", Value.vStr "black")] "g2"
      = Except.error { code := ErrCode.dup11000, message := "Not Unique" } ∧
    ([pypyRow].filter (fun r =>
        optValueEq (docGet r.cols "fur") (some (Value.vStr "black")))).length = 1 := by
  have hc : ([pypyRow].any (fun r => uniqueConflict r
      (prepareForInsert [idIndex, furUniqueIndex]
        [("_id", Value.vStr "2"), ("fur", Value.vStr "black")] "g2")
      [idIndex, furUniqueIndex])) = true := by
    simp [uniqueConflict, prepareForInsert, prepareForUpdate, idIndex, furUniqueIndex,
      pypyRow, deepGet.eq_def, docGet, objSet, hasKey, mangleName, jsTruthy,
      valueEq, List.foldl]
  refine ⟨?_, hc, ?_, ?_⟩
  · simp [insertOneModel, uniqueConflict, prepareForInsert, prepareForUpdate, idIndex,
      furUniqueIndex, pypyRow, deepGet.eq_def, docGet, objSet, hasKey, mangleName,
      jsTruthy, valueEq, List.foldl]
  · exact sqlite_unique_conflict_translated [pypyRow] [idIndex, furUniqueIndex]
      [("_id", Value.vStr "2"), ("fur", Value.vStr "black")] "g2" hc
  · simp [pypyRow, docGet, optValueEq, valueEq, List.filter]

/-- Resolution of touched paths in locked mode either leaves the metadata
untouched or fails with SchemaViolation; with one path unprovisioned it must
fail. -/
theorem foldResolve_locked_missing (paths : List String) (md : Metadata) (p : String)
    (hp : p ∈ paths) (hmiss : lookupEntry md.entries p = none) :
    paths.foldlM (fun m q => (resolveColumn Mode.locked m q).map (fun r => r.1)) md
      = Except.error schemaViolationErr := by
  induction paths with
  | nil => simp at hp
  | cons q rest ih =>
    rw [List.foldlM_cons]
    rcases List.mem_cons.mp hp with rfl | hmem
    · simp [resolveColumn, hmiss, Except.map, Bind.bind, Except.bind]
    · cases hq : lookupEntry md.entries q with
      | some col =>
        simp only [resolveColumn, hq, Except.map, Bind.bind, Except.bind]
        exact ih hmem
      | none =>
        simp [resolveColumn, hq, Except.map, Bind.bind, Except.bind]

/-- Claim C3: in locked (production) mode, an update whose operators touch a
property path with no metadata entry fails with the `SchemaViolation` error
and performs no write — the computation aborts at column resolution, before
the row update, so no successor table state exists.  (Spec-modelled: the
metadata store and locked mode are described by the spec and README but are
not implemented under src/.) -/
theorem locked_mode_schema_violation (md : Metadata) (t : List Row)
    (indexes : List Index) (doc doc2 ops : Doc) (now : Int) (p : String)
    (hp : p ∈ touchedPaths ops now)
    (hmiss : lookupEntry md.entries p = none)
    (happly : applyOperations doc ops now = Except.ok doc2) :
    updateBodyWithMetadata Mode.locked md t indexes doc ops now
      = Except.error schemaViolationErr := by
  simp only [updateBodyWithMetadata, happly, Bind.bind, Except.bind]
  rw [foldResolve_locked_missing (touchedPaths ops now) md p hp hmiss]

/-- Claim C3, witness: in locked mode with empty metadata,
`updateBody({_id: '1'}, {$set: {brandNew: 5}})` fails with SchemaViolation. -/
theorem locked_mode_schema_violation_witness :
    "brandNew" ∈ touchedPaths [("$set", Value.vObj [("brandNew", Value.vInt 5)])] 0 ∧
    lookupEntry (Metadata.mk []).entries "brandNew" = none ∧
    applyOperations [("_id", Value.vStr "1")]
        [("$set", Value.vObj [("brandNew", Value.vInt 5)])] 0
      = Except.ok [("_id", Value.vStr "1"), ("brandNew", Value.vInt 5)] ∧
    updateBodyWithMetadata Mode.locked (Metadata.mk []) [pypyRow] [idIndex]
        [("_id", Value.vStr "1")] [("$set", Value.vObj [("brandNew", Value.vInt 5)])] 0
      = Except.error schemaViolationErr := by
  have hp : "brandNew" ∈ touchedPaths [("$set", Value.vObj [("brandNew", Value.vInt 5)])] 0 := by
    simp [touchedPaths, rewriteCurrentDate, docGet]
  have hmiss : lookupEntry (Metadata.mk []).entries "brandNew" = none := by
    simp [lookupEntry]
  have happly : applyOperations [("_id", Value.vStr "1")]
      [("$set", Value.vObj [("brandNew", Value.vInt 5)])] 0
      = Except.ok [("_id", Value.vStr "1"), ("brandNew", Value.vInt 5)] := by
    simp [applyOperations, rewriteCurrentDate, docGet, applyOp, objSet, hasKey,
      List.foldlM]
  exact ⟨hp, hmiss, happly,
    locked_mode_schema_violation (Metadata.mk []) [pypyRow] [idIndex]
      [("_id", Value.vStr "1")] [("_id", Value.vStr "1"), ("brandNew", Value.vInt 5)]
      [("$set", Value.vObj [("brandNew", Value.vInt 5)])] 0 "brandNew" hp hmiss happly⟩

end ASql
